import Mathlib

/-!
Verification development for the local-brain retrieval pipeline.

Strings are modelled as `List Char` (Python `str`).  Each definition below is a
shallow embedding of a function from the repository sources:

* `chunk_text`       — `rag_index.py`, `chunk_text`
* `build_index`      — `rag_index.py`, `build_index` (store and external calls
                       modelled explicitly; the vector store is a list of entries)
* `iter_new_records`, `ingest_main`
                     — `_alpha/ingest_conversations.py`, `iter_new_records` / `main`
* `retrieve_context` — `llm_rag_cli.py`, `retrieve_context`
-/

set_option maxRecDepth 10000

namespace LocalBrain

/-- Python `str.strip` whitespace test, restricted to the ASCII whitespace
characters (space, tab, newline, carriage return, vertical tab, form feed). -/
def isWS (c : Char) : Bool :=
  c == ' ' || c == '\t' || c == '\n' || c == '\r' || c == '\x0b' || c == '\x0c'

/-- Left part of Python `str.strip`. -/
def lstrip (s : List Char) : List Char := s.dropWhile isWS

/-- Python `str.strip`: drop whitespace at both ends. -/
def strip (s : List Char) : List Char :=
  ((lstrip s).reverse.dropWhile isWS).reverse

/-- Python `text.replace("\r\n", "\n")`. -/
def normCRLF : List Char → List Char
  | [] => []
  | '\r' :: '\n' :: rest => '\n' :: normCRLF rest
  | c :: rest => c :: normCRLF rest

/-- Helper for `splitLines`: prepend a character to the first line. -/
def consHead (c : Char) : List (List Char) → List (List Char)
  | [] => [[c]]
  | l :: ls => (c :: l) :: ls

/-- Python `text.split("\n")`: always returns one more piece than the number of
newlines; the empty string splits to `[""]`. -/
def splitLines : List Char → List (List Char)
  | [] => [[]]
  | c :: rest =>
    if c = '\n' then [] :: splitLines rest
    else consHead c (splitLines rest)

/-- Python `"\n".join(lines)`. -/
def joinNL : List (List Char) → List Char
  | [] => []
  | [l] => l
  | l :: ls => l ++ '\n' :: joinNL ls

/-- Python `sum(len(x) for x in current)`. -/
def sumLen : List (List Char) → Nat
  | [] => 0
  | l :: ls => l.length + sumLen ls

/-- The buffer loop of `chunk_text` (rag_index.py lines 91-101), returning the
flushed buffers before they are joined and stripped.  `cur` is the running
`current` list; a buffer is flushed when appending the next line would make
`sum(len(x) for x in current) + len(line) + 1` exceed `maxChars` and the buffer
is non-empty; any remaining buffer is flushed at the end. -/
def buffers (maxChars : Nat) : List (List Char) → List (List Char) → List (List (List Char))
  | cur, [] => if cur = [] then [] else [cur]
  | cur, l :: ls =>
    if maxChars < sumLen cur + l.length + 1 ∧ cur ≠ [] then
      cur :: buffers maxChars [l] ls
    else
      buffers maxChars (cur ++ [l]) ls

/-- `chunk_text` from rag_index.py: normalize CRLF, strip, return `[]` on empty,
otherwise run the buffer loop and emit `"\n".join(current).strip()` per buffer. -/
def chunk_text (text : List Char) (maxChars : Nat) : List (List Char) :=
  if strip (normCRLF text) = [] then []
  else (buffers maxChars [] (splitLines (strip (normCRLF text)))).map
    (fun b => strip (joinNL b))

/-- The non-whitespace characters of a string, in order. -/
def nwsOf (s : List Char) : List Char := s.filter (fun c => !(isWS c))

/-- Concatenation of a list of lists. -/
def catl {α : Type} : List (List α) → List α
  | [] => []
  | x :: xs => x ++ catl xs

lemma catl_append {α : Type} (xs ys : List (List α)) :
    catl (xs ++ ys) = catl xs ++ catl ys := by
  induction xs with
  | nil => rfl
  | cons x xs ih => simp [catl, ih]

lemma mem_catl {α : Type} {x : α} {b : List α} {L : List (List α)}
    (hb : b ∈ L) (hx : x ∈ b) : x ∈ catl L := by
  induction L with
  | nil => cases hb
  | cons y ys ih =>
    rcases List.mem_cons.mp hb with h | h
    · subst h; exact List.mem_append_left _ hx
    · exact List.mem_append_right _ (ih h)

lemma catl_ne_nil {α : Type} {x : List α} {L : List (List α)}
    (hx : x ∈ L) (hne : x ≠ []) : catl L ≠ [] := by
  induction L with
  | nil => cases hx
  | cons y ys ih =>
    intro habs
    rcases List.append_eq_nil.mp habs with ⟨h1, h2⟩
    rcases List.mem_cons.mp hx with h | h
    · exact hne (h ▸ h1)
    · exact ih h h2

lemma strip_decomp (s : List Char) :
    ∃ d₁ d₂, (∀ c ∈ d₁, isWS c = true) ∧ (∀ c ∈ d₂, isWS c = true) ∧
      s = d₁ ++ strip s ++ d₂ := by
  refine ⟨s.takeWhile isWS, ((lstrip s).reverse.takeWhile isWS).reverse, ?_, ?_, ?_⟩
  · intro c hc; exact List.mem_takeWhile_imp hc
  · intro c hc; exact List.mem_takeWhile_imp (List.mem_reverse.mp hc)
  · have h1 : s.takeWhile isWS ++ lstrip s = s :=
      List.takeWhile_append_dropWhile isWS s
    have h2 : (lstrip s).reverse.takeWhile isWS ++ (lstrip s).reverse.dropWhile isWS
        = (lstrip s).reverse := List.takeWhile_append_dropWhile isWS (lstrip s).reverse
    have h3 : lstrip s = strip s ++ ((lstrip s).reverse.takeWhile isWS).reverse := by
      conv_lhs => rw [← List.reverse_reverse (lstrip s), ← h2]
      rw [List.reverse_append]
      rfl
    rw [List.append_assoc, ← h3, h1]

lemma nws_ws_nil {d : List Char} (h : ∀ c ∈ d, isWS c = true) : nwsOf d = [] := by
  apply List.filter_eq_nil_iff.mpr
  intro c hc
  simp [h c hc]

lemma nws_strip (s : List Char) : nwsOf (strip s) = nwsOf s := by
  obtain ⟨d₁, d₂, hw1, hw2, hs⟩ := strip_decomp s
  conv_rhs => rw [hs]
  simp only [nwsOf, List.filter_append]
  rw [← nwsOf, ← nwsOf, ← nwsOf, nws_ws_nil hw1, nws_ws_nil hw2]
  simp

lemma strip_count_le (s : List Char) : (strip s).count '\n' ≤ s.count '\n' := by
  obtain ⟨d₁, d₂, _, _, hs⟩ := strip_decomp s
  conv_rhs => rw [hs]
  simp [List.count_append]
  omega

lemma strip_len_count {s : List Char} {B : Nat}
    (h : s.length + 1 ≤ B + s.count '\n') :
    (strip s).length + 1 ≤ B + (strip s).count '\n' := by
  obtain ⟨d₁, d₂, _, _, hs⟩ := strip_decomp s
  have hc1 : d₁.count '\n' ≤ d₁.length := List.count_le_length _ _
  have hc2 : d₂.count '\n' ≤ d₂.length := List.count_le_length _ _
  rw [hs] at h
  simp [List.count_append, List.length_append] at h
  omega

lemma joinNL_cons2 (l l₂ : List Char) (ls : List (List Char)) :
    joinNL (l :: l₂ :: ls) = l ++ '\n' :: joinNL (l₂ :: ls) := rfl

lemma joinNL_length : ∀ b : List (List Char), b ≠ [] →
    (joinNL b).length + 1 = sumLen b + b.length
  | [], h => absurd rfl h
  | [l], _ => by simp [joinNL, sumLen]
  | l :: l₂ :: ls, _ => by
    have ih := joinNL_length (l₂ :: ls) (by simp)
    rw [joinNL_cons2]
    simp only [sumLen, List.length_append, List.length_cons] at ih ⊢
    omega

lemma count_cons_ne {c b : Char} (l : List Char) (h : b ≠ c) :
    (b :: l).count c = l.count c := by
  simp [List.count_cons, h]

lemma count_cons_self {c : Char} (l : List Char) :
    (c :: l).count c = l.count c + 1 := by
  simp [List.count_cons]

lemma joinNL_count : ∀ b : List (List Char), b ≠ [] →
    (∀ l ∈ b, l.count '\n' = 0) →
    (joinNL b).count '\n' + 1 = b.length
  | [], h, _ => absurd rfl h
  | [l], _, hnl => by
    simp [joinNL, hnl l (by simp)]
  | l :: l₂ :: ls, _, hnl => by
    have ih := joinNL_count (l₂ :: ls) (by simp)
      (fun x hx => hnl x (List.mem_cons_of_mem _ hx))
    rw [joinNL_cons2]
    rw [List.count_append, count_cons_self, hnl l (by simp)]
    simp only [List.length_cons] at ih ⊢
    omega

lemma splitLines_ne_nil : ∀ s : List Char, splitLines s ≠ []
  | [] => by simp [splitLines]
  | c :: rest => by
    rw [splitLines]
    by_cases hc : c = '\n'
    · simp [hc]
    · rw [if_neg hc]
      rcases h : splitLines rest with _ | ⟨l, ls⟩
      · simp [consHead]
      · simp [consHead]

lemma joinNL_consHead (c : Char) : ∀ ls : List (List Char), ls ≠ [] →
    joinNL (consHead c ls) = c :: joinNL ls
  | [], h => absurd rfl h
  | [l], _ => rfl
  | _ :: _ :: _, _ => rfl

lemma join_split : ∀ s : List Char, joinNL (splitLines s) = s
  | [] => rfl
  | c :: rest => by
    rw [splitLines]
    by_cases hc : c = '\n'
    · rw [if_pos hc]
      rcases h : splitLines rest with _ | ⟨l, ls⟩
      · exact absurd h (splitLines_ne_nil rest)
      · have ih := join_split rest
        rw [h] at ih
        rw [joinNL_cons2, ih, hc]
        rfl
    · rw [if_neg hc, joinNL_consHead c _ (splitLines_ne_nil rest), join_split rest]

lemma splitLines_nl_free : ∀ s : List Char, ∀ l ∈ splitLines s, '\n' ∉ l
  | [] => by simp [splitLines]
  | c :: rest => by
    intro l hl
    rw [splitLines] at hl
    by_cases hc : c = '\n'
    · rw [if_pos hc] at hl
      rcases List.mem_cons.mp hl with h | h
      · subst h; simp
      · exact splitLines_nl_free rest l h
    · rw [if_neg hc] at hl
      rcases h : splitLines rest with _ | ⟨m, ms⟩
      · exact absurd h (splitLines_ne_nil rest)
      · rw [h, consHead] at hl
        rcases List.mem_cons.mp hl with h2 | h2
        · subst h2
          intro habs
          rcases List.mem_cons.mp habs with h3 | h3
          · exact hc h3.symm
          · exact splitLines_nl_free rest m (h ▸ List.mem_cons_self m ms) h3
        · exact splitLines_nl_free rest l (h ▸ List.mem_cons_of_mem m h2)

lemma sumLen_append (xs ys : List (List Char)) :
    sumLen (xs ++ ys) = sumLen xs + sumLen ys := by
  induction xs with
  | nil => simp [sumLen]
  | cons x xs ih => simp [sumLen, ih]; omega

lemma buffers_flat (B : Nat) : ∀ (ls cur : List (List Char)),
    catl (buffers B cur ls) = cur ++ ls
  | [], cur => by
    by_cases h : cur = []
    · simp [buffers, h, catl]
    · simp [buffers, h, catl]
  | l :: ls, cur => by
    rw [buffers]
    by_cases h : B < sumLen cur + l.length + 1 ∧ cur ≠ []
    · rw [if_pos h]
      show cur ++ catl (buffers B [l] ls) = cur ++ (l :: ls)
      rw [buffers_flat B ls [l]]
      rfl
    · rw [if_neg h, buffers_flat B ls (cur ++ [l]), List.append_assoc]
      rfl

lemma buffers_ne_nil (B : Nat) : ∀ (ls cur : List (List Char)),
    ∀ b ∈ buffers B cur ls, b ≠ []
  | [], cur => by
    by_cases h : cur = []
    · simp [buffers, h]
    · simp [buffers, h]
  | l :: ls, cur => by
    intro b hb
    rw [buffers] at hb
    by_cases h : B < sumLen cur + l.length + 1 ∧ cur ≠ []
    · rw [if_pos h] at hb
      rcases List.mem_cons.mp hb with h2 | h2
      · subst h2; exact h.2
      · exact buffers_ne_nil B ls [l] b h2
    · rw [if_neg h] at hb
      exact buffers_ne_nil B ls (cur ++ [l]) b hb

lemma buffers_sum (B : Nat) : ∀ (ls cur : List (List Char)),
    (2 ≤ cur.length → sumLen cur + 1 ≤ B) →
    ∀ b ∈ buffers B cur ls, b.length = 1 ∨ sumLen b + 1 ≤ B
  | [], cur => by
    intro hcur b hb
    by_cases h : cur = []
    · simp [buffers, h] at hb
    · simp [buffers, h] at hb
      subst hb
      rcases Nat.lt_or_ge b.length 2 with h2 | h2
      · left
        have : b.length ≠ 0 := fun h0 => h (List.length_eq_zero.mp h0)
        omega
      · right; exact hcur h2
  | l :: ls, cur => by
    intro hcur b hb
    rw [buffers] at hb
    by_cases h : B < sumLen cur + l.length + 1 ∧ cur ≠ []
    · rw [if_pos h] at hb
      rcases List.mem_cons.mp hb with h2 | h2
      · subst h2
        rcases Nat.lt_or_ge b.length 2 with h3 | h3
        · left
          have : b.length ≠ 0 := fun h0 => h.2 (List.length_eq_zero.mp h0)
          omega
        · right; exact hcur h3
      · exact buffers_sum B ls [l] (by intro h3; simp at h3) b h2
    · rw [if_neg h] at hb
      refine buffers_sum B ls (cur ++ [l]) ?_ b hb
      intro h2
      by_cases hc : cur = []
      · subst hc; simp at h2
      · have h3 : ¬ B < sumLen cur + l.length + 1 := fun hlt => h ⟨hlt, hc⟩
        rw [sumLen_append]
        simp [sumLen]
        omega

lemma nws_cons_ws {c : Char} (s : List Char) (h : isWS c = true) :
    nwsOf (c :: s) = nwsOf s := by
  simp [nwsOf, List.filter_cons, h]

lemma nws_append (a b : List Char) : nwsOf (a ++ b) = nwsOf a ++ nwsOf b := by
  simp [nwsOf, List.filter_append]

lemma nws_joinNL : ∀ ps : List (List Char),
    nwsOf (joinNL ps) = catl (ps.map nwsOf)
  | [] => rfl
  | [l] => by simp [joinNL, catl]
  | l :: l₂ :: ls => by
    rw [joinNL_cons2, nws_append, nws_cons_ws _ (by rfl), nws_joinNL (l₂ :: ls)]
    rfl

lemma catl_map_flat {α β : Type} (g : α → List β) :
    ∀ L : List (List α),
      catl (L.map (fun b => catl (b.map g))) = catl ((catl L).map g)
  | [] => rfl
  | x :: xs => by
    show catl (x.map g) ++ catl (List.map _ xs) = catl ((x ++ catl xs).map g)
    rw [List.map_append, catl_append, catl_map_flat g xs]

lemma count_eq_zero_of_nl_free {l : List Char} (h : '\n' ∉ l) : l.count '\n' = 0 :=
  List.count_eq_zero.mpr h

/-- Every line of every buffer produced by `chunk_text`'s loop is one of the
split lines of the input. -/
lemma buffers_line_mem {B : Nat} {ls : List (List Char)} {b : List (List Char)}
    (hb : b ∈ buffers B [] ls) : ∀ l ∈ b, l ∈ ls := by
  intro l hl
  have := mem_catl hb hl
  rw [buffers_flat B ls []] at this
  simpa using this

/-- C3, the claim as stated, is false: in `chunk_text "ab\nc\nd" 5` no source
line is longer than 5 characters, yet the single returned chunk has length 6
(the flush test sums line lengths but counts only one of the two newline
separators). -/
theorem chunk_bound_cex :
    (splitLines (strip (normCRLF ("ab\nc\nd").data))).map List.length = [2, 1, 1] ∧
    (chunk_text ("ab\nc\nd").data 5).map List.length = [6] := by
  decide

/-- C3 (amended): every chunk that spans several source lines (it contains a
newline) has length at most `B - 1` plus its number of newline separators — so
it can exceed `B` only by (line count - 2); a chunk without a newline is a
single source line, which may be arbitrarily long (the soft bound). -/
theorem chunk_soft_bound (T : List Char) (B : Nat) (c : List Char)
    (hc : c ∈ chunk_text T B) :
    c.count '\n' = 0 ∨ c.length + 1 ≤ B + c.count '\n' := by
  rw [chunk_text] at hc
  by_cases ht : strip (normCRLF T) = []
  · rw [if_pos ht] at hc; cases hc
  · rw [if_neg ht] at hc
    obtain ⟨b, hb, rfl⟩ := List.mem_map.mp hc
    have hnlfree : ∀ l ∈ b, l.count '\n' = 0 := fun l hl =>
      count_eq_zero_of_nl_free
        (splitLines_nl_free (strip (normCRLF T)) l (buffers_line_mem hb l hl))
    have hbne : b ≠ [] := buffers_ne_nil B _ [] b hb
    rcases buffers_sum B _ [] (by intro h2; simp at h2) b hb with h1 | h1
    · left
      obtain ⟨l, rfl⟩ := List.length_eq_one.mp h1
      have h0 : l.count '\n' = 0 := hnlfree l (by simp)
      have hle := strip_count_le l
      simp only [joinNL]
      omega
    · right
      have hlen := joinNL_length b hbne
      have hcnt := joinNL_count b hbne hnlfree
      exact strip_len_count (by omega)

/-- Witness for `chunk_soft_bound` at a concrete input. -/
theorem chunk_soft_bound_witness :
    (("ab").data).count '\n' = 0 ∨
      (("ab").data).length + 1 ≤ 5 + (("ab").data).count '\n' :=
  chunk_soft_bound ("ab").data 5 ("ab").data (by decide)

/-- C4, the claim as stated, is false: for `chunk_text "a\n\nbb" 3` the chunks
are `["a", "bb"]`; joining them with a newline and trimming gives `"a\nbb"`,
which is not the normalized, trimmed input `"a\n\nbb"` — the blank line at the
first chunk's boundary was stripped away. -/
theorem chunk_roundtrip_cex :
    strip (joinNL (chunk_text ("a\n\nbb").data 3)) ≠
      strip (normCRLF ("a\n\nbb").data) := by
  decide

/-- C4 (amended): the round trip holds only up to whitespace at each chunk
boundary, because every emitted chunk is individually stripped.  No
non-whitespace character of the text is lost or altered: joining the chunks
with newlines preserves the exact sequence of non-whitespace characters of the
normalized input. -/
theorem chunk_roundtrip_amended (T : List Char) (B : Nat) :
    nwsOf (joinNL (chunk_text T B)) = nwsOf (normCRLF T) := by
  rw [chunk_text]
  by_cases ht : strip (normCRLF T) = []
  · rw [if_pos ht]
    have h := nws_strip (normCRLF T)
    rw [ht] at h
    rw [← h]
    rfl
  · rw [if_neg ht, nws_joinNL, List.map_map]
    have hcongr :
        ((buffers B [] (splitLines (strip (normCRLF T)))).map
          (nwsOf ∘ fun b => strip (joinNL b)))
        = (buffers B [] (splitLines (strip (normCRLF T)))).map
          (fun b => catl (b.map nwsOf)) := by
      apply List.map_congr_left
      intro b _
      show nwsOf (strip (joinNL b)) = catl (b.map nwsOf)
      rw [nws_strip, nws_joinNL]
    rw [hcongr, catl_map_flat, buffers_flat, List.nil_append, ← nws_joinNL,
      join_split, nws_strip]

/-- C8, the claim as stated, is false: `chunk_text "a\n\nb" 1` returns an empty
chunk — the blank middle line is flushed alone and strips to the empty string. -/
theorem chunk_nonempty_cex :
    chunk_text ("a\n\nb").data 1 = [['a'], [], ['b']] := by
  decide

/-- C8 (amended): every chunk is non-empty provided every line of the
normalized, trimmed input contains at least one non-whitespace character; in
general a whitespace-only line squeezed between two flushes becomes an empty
chunk. -/
theorem chunk_nonempty_amended (T : List Char) (B : Nat)
    (h : ∀ l ∈ splitLines (strip (normCRLF T)), nwsOf l ≠ []) :
    ∀ c ∈ chunk_text T B, c ≠ [] := by
  intro c hc
  rw [chunk_text] at hc
  by_cases ht : strip (normCRLF T) = []
  · rw [if_pos ht] at hc; cases hc
  · rw [if_neg ht] at hc
    obtain ⟨b, hb, rfl⟩ := List.mem_map.mp hc
    have hbne : b ≠ [] := buffers_ne_nil B _ [] b hb
    obtain ⟨l₀, hl₀⟩ := List.exists_mem_of_ne_nil b hbne
    have hl₀s : l₀ ∈ splitLines (strip (normCRLF T)) := buffers_line_mem hb l₀ hl₀
    intro habs
    have h1 : nwsOf (strip (joinNL b)) = [] := by rw [habs]; rfl
    rw [nws_strip, nws_joinNL] at h1
    exact catl_ne_nil (List.mem_map_of_mem nwsOf hl₀) (h l₀ hl₀s) h1

/-- Witness for `chunk_nonempty_amended` at a concrete input. -/
theorem chunk_nonempty_amended_witness : ("ab").data ≠ [] :=
  chunk_nonempty_amended ("ab").data 3 (by decide) ("ab").data (by decide)

/-! ## Incremental ingestion (`_alpha/ingest_conversations.py`)

A live-log record as produced by `json.loads` plus the `rec.get(..., default)`
accesses of `main`: each field holds the raw value with the code's default
already applied.  A raw log line is classified by the only three behaviours the
code distinguishes: it strips to empty, it fails `json.loads`, or it parses to
a record (JSON parsing itself is an external library call). -/

structure LiveRec where
  user_prompt : List Char
  assistant_reply : List Char
  timestamp : List Char
  model : List Char
  used_rag : Bool
deriving DecidableEq

/-- A line of the live log, classified by how `iter_new_records` treats it. -/
inductive LogLine
  | blank
  | malformed
  | record (r : LiveRec)
deriving DecidableEq

/-- Metadata of an index entry (the dict shapes of rag_index.py line 144 and
ingest_conversations.py line 120, merged with optional fields). -/
structure MetaD where
  source : List Char
  conversation_title : Option (List Char)
  role : Option (List Char)
  timestamp : Option (List Char)
  model : Option (List Char)
  used_rag : Option Bool
deriving DecidableEq

/-- One entry of the vector store: id, document, metadata (the embedding vector
is determined by the document and plays no role in the claims). -/
structure Entry where
  id : List Char
  doc : List Char
  meta : MetaD
deriving DecidableEq

/-- Metadata tag of the bulk-export partition (`"chatgpt_export"` in the code). -/
def bulkTag : List Char := ("chatgpt_export").data

/-- Metadata tag of the live partition (`"live_cli"` in the code). -/
def liveTag : List Char := ("live_cli").data

/-- Decimal rendering of a line number, as in Python f-string interpolation. -/
def natChars (n : Nat) : List Char := (Nat.repr n).data

/-- Python `enumerate(f, start=1)` over the log lines. -/
def enum1 : Nat → List LogLine → List (Nat × LogLine)
  | _, [] => []
  | i, l :: ls => (i, l) :: enum1 (i + 1) ls

/-- The body of `iter_new_records`: skip lines at or before `lastLine`, skip
blank lines, skip lines that fail JSON parsing, yield `(line_no, record)`. -/
def keepNew (lastLine : Nat) (p : Nat × LogLine) : Option (Nat × LiveRec) :=
  if p.1 ≤ lastLine then none
  else
    match p.2 with
    | .blank => none
    | .malformed => none
    | .record r => some (p.1, r)

/-- `iter_new_records` from ingest_conversations.py. -/
def iter_new_records (lastLine : Nat) (log : List LogLine) : List (Nat × LiveRec) :=
  (enum1 1 log).filterMap (keepNew lastLine)

/-- Python rendering of a bool inside an f-string. -/
def pyBool : Bool → List Char
  | true => ("True").data
  | false => ("False").data

/-- The composed document text of a kept live record (ingest_conversations.py
lines 113-117); `user_prompt` and `assistant_reply` enter it stripped. -/
def composeDoc (r : LiveRec) : List Char :=
  strip (("[").data ++ r.timestamp ++ ("] (cli, model=").data ++ r.model ++
    (", used_rag=").data ++ pyBool r.used_rag ++ (")\n").data ++
    ("User:\n").data ++ strip r.user_prompt ++ ("\n\n").data ++
    ("Assistant:\n").data ++ strip r.assistant_reply ++ ("\n").data)

/-- The index entry built for the live record on line `i`
(id `f"live-cli-{line_no}"`, source tag `"live_cli"`). -/
def liveEntry (i : Nat) (r : LiveRec) : Entry :=
  { id := ("live-cli-").data ++ natChars i
    doc := composeDoc r
    meta := { source := liveTag, conversation_title := none, role := none,
              timestamp := some r.timestamp, model := some r.model,
              used_rag := some r.used_rag } }

/-- One iteration of the `for line_no, rec in iter_new_records(...)` loop of
`main`: advance `new_last_line` to the line number, then skip the record if
both prompt and reply strip to empty, else append its entry. -/
def ingestStep (acc : Nat × List Entry) (p : Nat × LiveRec) : Nat × List Entry :=
  if strip p.2.user_prompt = [] ∧ strip p.2.assistant_reply = [] then
    (max acc.1 p.1, acc.2)
  else
    (max acc.1 p.1, acc.2 ++ [liveEntry p.1 p.2])

/-- `main` of ingest_conversations.py, observable effect: returns the persisted
cursor value after the run and the list of entries added to the store, given
the prior cursor and the log.  The embedding model and the store `add` calls
are modelled as succeeding; `save_state` is called only when `new_last_line >
last_line`, so the persisted value is `new_last_line` in every case. -/
def ingest_main (lastLine : Nat) (log : List LogLine) : Nat × List Entry :=
  (iter_new_records lastLine log).foldl ingestStep (lastLine, [])

lemma enum1_append (k : Nat) (xs ys : List LogLine) :
    enum1 k (xs ++ ys) = enum1 k xs ++ enum1 (k + xs.length) ys := by
  induction xs generalizing k with
  | nil => simp [enum1]
  | cons x xs ih =>
    simp only [List.cons_append, enum1, List.length_cons, List.append_eq]
    rw [ih (k + 1)]
    have h : k + 1 + xs.length = k + (xs.length + 1) := by omega
    rw [h]

lemma enum1_bounds : ∀ (k : Nat) (xs : List LogLine), ∀ p ∈ enum1 k xs,
    k ≤ p.1 ∧ p.1 < k + xs.length
  | _, [] => by simp [enum1]
  | k, x :: xs => by
    intro p hp
    rcases List.mem_cons.mp hp with h | h
    · subst h; simp
    · have := enum1_bounds (k + 1) xs p h
      simp only [List.length_cons]
      omega

lemma ingestStep_keep (acc : Nat × List Entry) (i : Nat) (r : LiveRec)
    (h : ¬(strip r.user_prompt = [] ∧ strip r.assistant_reply = [])) :
    ingestStep acc (i, r) = (max acc.1 i, acc.2 ++ [liveEntry i r]) := by
  simp only [ingestStep]
  rw [if_neg h]

lemma fold_mem_mono : ∀ (recs : List (Nat × LiveRec)) (acc : Nat × List Entry)
    {e : Entry}, e ∈ acc.2 → e ∈ (recs.foldl ingestStep acc).2
  | [], _, _, he => he
  | p :: ps, acc, e, he => by
    rw [List.foldl_cons]
    apply fold_mem_mono ps
    simp only [ingestStep]
    split
    · exact he
    · exact List.mem_append_left _ he

lemma fold_mem_add : ∀ (recs : List (Nat × LiveRec)) (acc : Nat × List Entry)
    (i : Nat) (r : LiveRec), (i, r) ∈ recs →
    ¬(strip r.user_prompt = [] ∧ strip r.assistant_reply = []) →
    liveEntry i r ∈ (recs.foldl ingestStep acc).2
  | [], _, _, _, h, _ => absurd h (List.not_mem_nil _)
  | p :: ps, acc, i, r, h, hne => by
    rw [List.foldl_cons]
    rcases List.mem_cons.mp h with h2 | h2
    · subst h2
      apply fold_mem_mono ps
      rw [ingestStep_keep _ _ _ hne]
      simp
    · exact fold_mem_add ps _ i r h2 hne

lemma fold_fst_ge : ∀ (recs : List (Nat × LiveRec)) (acc : Nat × List Entry),
    acc.1 ≤ (recs.foldl ingestStep acc).1
  | [], _ => le_refl _
  | p :: ps, acc => by
    rw [List.foldl_cons]
    refine le_trans ?_ (fold_fst_ge ps _)
    simp only [ingestStep]
    split
    · exact Nat.le_max_left _ _
    · exact Nat.le_max_left _ _

lemma mem_fold_fst : ∀ (recs : List (Nat × LiveRec)) (acc : Nat × List Entry)
    (i : Nat) (r : LiveRec), (i, r) ∈ recs →
    i ≤ (recs.foldl ingestStep acc).1
  | [], _, _, _, h => absurd h (List.not_mem_nil _)
  | p :: ps, acc, i, r, h => by
    rw [List.foldl_cons]
    rcases List.mem_cons.mp h with h2 | h2
    · subst h2
      refine le_trans ?_ (fold_fst_ge ps _)
      simp only [ingestStep]
      split
      · exact Nat.le_max_right _ _
      · exact Nat.le_max_right _ _
    · exact mem_fold_fst ps _ i r h2

/-- C2, the claim as stated, is false: with cursor 0 and a one-line log whose
single line is unparseable, the run leaves the persisted cursor at 0, not at
the highest line number scanned (1) — `new_last_line` is only advanced for
lines that parse, and `save_state` is skipped when it did not grow. -/
theorem noise_cursor_cex :
    (ingest_main 0 [LogLine.malformed]).1 = 0 ∧
    (ingest_main 0 [LogLine.malformed]).1 ≠ 1 := by
  decide

/-- C2 (amended): a parse failure or blank line is skipped without raising and
does not block later lines — any later parseable, non-empty record still
produces its entry — but such lines do not advance the watermark themselves:
the persisted cursor moves only to the highest line number that parsed as
JSON, so a log whose new lines are all blank or malformed leaves the cursor
(and the store) unchanged. -/
theorem noise_cursor_amended :
    (∀ (lastLine : Nat) (log : List LogLine),
      (∀ p ∈ enum1 1 log, lastLine < p.1 →
        p.2 = LogLine.blank ∨ p.2 = LogLine.malformed) →
      ingest_main lastLine log = (lastLine, [])) ∧
    (∀ (lastLine : Nat) (log : List LogLine) (i : Nat) (r : LiveRec),
      (i, LogLine.record r) ∈ enum1 1 log → lastLine < i →
      ¬(strip r.user_prompt = [] ∧ strip r.assistant_reply = []) →
      liveEntry i r ∈ (ingest_main lastLine log).2) := by
  constructor
  · intro lastLine log h
    have hnil : iter_new_records lastLine log = [] := by
      apply List.filterMap_eq_nil_iff.mpr
      intro p hp
      simp only [keepNew]
      by_cases hle : p.1 ≤ lastLine
      · rw [if_pos hle]
      · rw [if_neg hle]
        rcases h p hp (by omega) with h2 | h2 <;> rw [h2]
    rw [ingest_main, hnil]
    rfl
  · intro lastLine log i r hmem hlt hne
    have hrec : (i, r) ∈ iter_new_records lastLine log :=
      List.mem_filterMap.mpr ⟨(i, LogLine.record r), hmem, by
        simp only [keepNew]
        rw [if_neg (by omega)]⟩
    rw [ingest_main]
    exact fold_mem_add _ _ i r hrec hne

/-- Witness for `noise_cursor_amended` at concrete inputs. -/
theorem noise_cursor_amended_witness :
    ingest_main 0 [LogLine.blank, LogLine.malformed] = (0, []) ∧
    liveEntry 1 ⟨("hi").data, ("yo").data, ("ts").data, ("m").data, true⟩ ∈
      (ingest_main 0
        [LogLine.record ⟨("hi").data, ("yo").data, ("ts").data, ("m").data, true⟩]).2 :=
  ⟨noise_cursor_amended.1 0 [LogLine.blank, LogLine.malformed] (by decide),
   noise_cursor_amended.2 0
     [LogLine.record ⟨("hi").data, ("yo").data, ("ts").data, ("m").data, true⟩]
     1 ⟨("hi").data, ("yo").data, ("ts").data, ("m").data, true⟩
     (by decide) (by decide) (by decide)⟩

/-- C5: with cursor 5 over a five-line prefix and three appended parseable,
non-empty lines, one run adds exactly the three entries for lines 6, 7 and 8,
with ids `live-cli-6`, `live-cli-7`, `live-cli-8` derived from the 1-based
line numbers, and the persisted cursor advances to 8. -/
theorem incremental_resume_exact (old5 : List LogLine) (r6 r7 r8 : LiveRec)
    (hlen : old5.length = 5)
    (h6 : ¬(strip r6.user_prompt = [] ∧ strip r6.assistant_reply = []))
    (h7 : ¬(strip r7.user_prompt = [] ∧ strip r7.assistant_reply = []))
    (h8 : ¬(strip r8.user_prompt = [] ∧ strip r8.assistant_reply = [])) :
    ingest_main 5 (old5 ++ [LogLine.record r6, LogLine.record r7, LogLine.record r8]) =
      (8, [liveEntry 6 r6, liveEntry 7 r7, liveEntry 8 r8]) ∧
    (liveEntry 6 r6).id = ("live-cli-6").data ∧
    (liveEntry 7 r7).id = ("live-cli-7").data ∧
    (liveEntry 8 r8).id = ("live-cli-8").data := by
  have hiter : iter_new_records 5
      (old5 ++ [LogLine.record r6, LogLine.record r7, LogLine.record r8]) =
      [(6, r6), (7, r7), (8, r8)] := by
    rw [iter_new_records, enum1_append, List.filterMap_append, hlen]
    have h1 : (enum1 1 old5).filterMap (keepNew 5) = [] := by
      apply List.filterMap_eq_nil_iff.mpr
      intro p hp
      have hb := enum1_bounds 1 old5 p hp
      rw [hlen] at hb
      simp only [keepNew]
      rw [if_pos (by omega)]
    rw [h1]
    rfl
  refine ⟨?_,
    by show ("live-cli-").data ++ natChars 6 = ("live-cli-6").data; decide,
    by show ("live-cli-").data ++ natChars 7 = ("live-cli-7").data; decide,
    by show ("live-cli-").data ++ natChars 8 = ("live-cli-8").data; decide⟩
  rw [ingest_main, hiter, List.foldl_cons, ingestStep_keep _ _ _ h6,
    List.foldl_cons, ingestStep_keep _ _ _ h7, List.foldl_cons,
    ingestStep_keep _ _ _ h8, List.foldl_nil]
  simp

/-- Witness for `incremental_resume_exact` at concrete inputs. -/
theorem incremental_resume_exact_witness :
    ingest_main 5 ([LogLine.blank, LogLine.blank, LogLine.blank, LogLine.blank,
        LogLine.blank] ++
      [LogLine.record ⟨("hi").data, ("yo").data, ("ts").data, ("m").data, true⟩,
       LogLine.record ⟨("hi").data, ("yo").data, ("ts").data, ("m").data, true⟩,
       LogLine.record ⟨("hi").data, ("yo").data, ("ts").data, ("m").data, true⟩]) =
      (8, [liveEntry 6 ⟨("hi").data, ("yo").data, ("ts").data, ("m").data, true⟩,
           liveEntry 7 ⟨("hi").data, ("yo").data, ("ts").data, ("m").data, true⟩,
           liveEntry 8 ⟨("hi").data, ("yo").data, ("ts").data, ("m").data, true⟩]) :=
  (incremental_resume_exact
    [LogLine.blank, LogLine.blank, LogLine.blank, LogLine.blank, LogLine.blank]
    ⟨("hi").data, ("yo").data, ("ts").data, ("m").data, true⟩
    ⟨("hi").data, ("yo").data, ("ts").data, ("m").data, true⟩
    ⟨("hi").data, ("yo").data, ("ts").data, ("m").data, true⟩
    (by decide) (by decide) (by decide) (by decide)).1

/-- C6: incremental ingestion is idempotent — after one run, a second run over
the same log starting from the new cursor yields no new records at all (no
line at or before the cursor is re-parsed or re-added) and leaves the cursor
value and the set of entries unchanged. -/
theorem incremental_idempotent (c : Nat) (log : List LogLine) :
    iter_new_records (ingest_main c log).1 log = [] ∧
    ingest_main (ingest_main c log).1 log = ((ingest_main c log).1, []) := by
  have hnil : iter_new_records (ingest_main c log).1 log = [] := by
    apply List.filterMap_eq_nil_iff.mpr
    intro p hp
    simp only [keepNew]
    by_cases hle : p.1 ≤ (ingest_main c log).1
    · rw [if_pos hle]
    · rw [if_neg hle]
      cases hp2 : p.2 with
      | blank => rfl
      | malformed => rfl
      | record r =>
        exfalso
        apply hle
        have hc : c < p.1 := by
          have := fold_fst_ge (iter_new_records c log) (c, [])
          simp only [ingest_main] at hle
          omega
        have hmem : (p.1, r) ∈ iter_new_records c log :=
          List.mem_filterMap.mpr ⟨p, hp, by
            simp only [keepNew]
            rw [if_neg (by omega), hp2]⟩
        exact mem_fold_fst (iter_new_records c log) (c, []) p.1 r hmem
  refine ⟨hnil, ?_⟩
  rw [ingest_main, hnil]
  rfl

/-! ## Full rebuild (`rag_index.py`, `build_index`)

The loader output is a list of `(conversation_title, role, text)` messages; the
vector store is a list of entries.  The external collaborators are modelled by
an environment of outcome flags: whether the partition delete succeeds, and
whether the embedding call / store add of the n-th batch succeeds.  A failing
delete is swallowed (`try/except: pass`); a failing encode or add raises out of
`build_index`, modelled as `Except.error`. -/

abbrev Msg := List Char × List Char × List Char

/-- The entry built for one chunk of an export message (rag_index.py lines
143-151): id `f"chatgpt-{doc_id}"`, source tag `"chatgpt_export"`. -/
def exportEntry (n : Nat) (title role doc : List Char) : Entry :=
  { id := ("chatgpt-").data ++ natChars n
    doc := doc
    meta := { source := bulkTag, conversation_title := some title,
              role := some role, timestamp := none, model := none,
              used_rag := none } }

/-- Entries for the chunks of one message, ids counting up from `n`. -/
def entriesOfChunks (title role : List Char) : Nat → List (List Char) → List Entry
  | _, [] => []
  | n, c :: cs => exportEntry n title role c :: entriesOfChunks title role (n + 1) cs

/-- All entries generated by the `for title, role, text in iter_chatgpt_messages`
loop with the monotonic `doc_id` counter starting at `n` (chunk size is the
default `max_chars = 1000`). -/
def exportEntries : Nat → List Msg → List Entry
  | _, [] => []
  | n, (t, r, x) :: ms =>
    entriesOfChunks t r n (chunk_text x 1000) ++
      exportEntries (n + (chunk_text x 1000).length) ms

/-- Outcomes of the external calls made by `build_index`: does the partition
delete succeed, and do the embedding call and the store add of the n-th batch
succeed. -/
structure Env where
  deleteOk : Bool
  encodeOk : Nat → Bool
  addOk : Nat → Bool

/-- The batching loop of `build_index` (rag_index.py lines 140-175): accumulate
entries, flush a batch of 128 via encode + add, final flush of any remainder;
a failing encode or add raises (no partial silent success for that batch).
Returns the entries durably added when every needed batch call succeeds. -/
def ingestLoop (env : Env) : Nat → List Entry → List Entry → Except Unit (List Entry)
  | bno, cur, [] =>
    if cur = [] then .ok []
    else if env.encodeOk bno && env.addOk bno then .ok cur else .error ()
  | bno, cur, e :: es =>
    if 128 ≤ (cur ++ [e]).length then
      if env.encodeOk bno && env.addOk bno then
        match ingestLoop env (bno + 1) [] es with
        | .ok added => .ok (cur ++ [e] ++ added)
        | .error err => .error err
      else .error ()
    else ingestLoop env bno (cur ++ [e]) es

/-- `build_index` from rag_index.py, observable effect on the store: first
delete the `source = "chatgpt_export"` partition (failure tolerated by
`try/except: pass`, leaving the store unchanged), then stream loader output
through the chunker and batch-add the new export entries; an encode/add
failure propagates as a fatal error. -/
def build_index (env : Env) (msgs : List Msg) (store : List Entry) :
    Except Unit (List Entry) :=
  match ingestLoop env 0 [] (exportEntries 0 msgs) with
  | .ok added =>
    .ok ((if env.deleteOk then
            store.filter (fun e => !(e.meta.source == bulkTag))
          else store) ++ added)
  | .error err => .error err

lemma ingestLoop_ok (env : Env) (henc : ∀ b, env.encodeOk b = true)
    (hadd : ∀ b, env.addOk b = true) :
    ∀ (rest cur : List Entry) (bno : Nat),
    ingestLoop env bno cur rest = .ok (cur ++ rest)
  | [], cur, bno => by
    by_cases hcur : cur = []
    · simp [ingestLoop, hcur]
    · simp [ingestLoop, hcur, henc bno, hadd bno]
  | e :: es, cur, bno => by
    by_cases hlen : 128 ≤ (cur ++ [e]).length
    · simp only [ingestLoop, if_pos hlen, henc bno, hadd bno, Bool.and_self,
        if_pos]
      rw [ingestLoop_ok env henc hadd es [] (bno + 1)]
      simp
    · simp only [ingestLoop, if_neg hlen]
      rw [ingestLoop_ok env henc hadd es (cur ++ [e]) bno]
      simp

/-- If some batch that the loop will have to flush — the `k`-th one after the
current batch `bno`, whose 128-entry window starts before the end of the
pending entries — has a failing encode or add, the loop returns an error:
either an earlier reached batch already fails, or every earlier batch succeeds
and the failing batch itself is reached and fails. -/
lemma ingestLoop_err_any (env : Env) :
    ∀ (rest cur : List Entry) (bno k : Nat),
    (env.encodeOk (bno + k) && env.addOk (bno + k)) = false →
    cur.length < 128 → 128 * k < cur.length + rest.length →
    ingestLoop env bno cur rest = .error ()
  | [], cur, bno, k => by
    intro hfail hcur hlt
    simp only [List.length_nil, Nat.add_zero] at hlt
    have hk : k = 0 := by
      rcases Nat.eq_zero_or_pos k with h | h
      · exact h
      · exfalso
        have : 128 * 1 ≤ 128 * k := Nat.mul_le_mul_left 128 h
        omega
    subst hk
    rw [Nat.add_zero] at hfail
    have hcne : cur ≠ [] := by
      intro h0
      rw [h0] at hlt
      simp at hlt
    simp only [ingestLoop, if_neg hcne, hfail]
    simp
  | e :: es, cur, bno, k => by
    intro hfail hcur hlt
    simp only [List.length_cons] at hlt
    by_cases hlen : 128 ≤ (cur ++ [e]).length
    · have hc127 : cur.length = 127 := by
        simp only [List.length_append, List.length_cons, List.length_nil] at hlen
        omega
      simp only [ingestLoop, if_pos hlen]
      by_cases hflag : (env.encodeOk bno && env.addOk bno) = true
      · rw [if_pos hflag]
        rcases k with _ | k
        · rw [Nat.add_zero, hflag] at hfail
          cases hfail
        · have hfail2 : (env.encodeOk ((bno + 1) + k) && env.addOk ((bno + 1) + k)) = false := by
            have harith : (bno + 1) + k = bno + (k + 1) := by omega
            rw [harith]
            exact hfail
          have hrec := ingestLoop_err_any env es [] (bno + 1) k hfail2
            (by simp) (by simp only [List.length_nil, Nat.zero_add]; omega)
          rw [hrec]
      · rw [if_neg hflag]
    · simp only [ingestLoop, if_neg hlen]
      refine ingestLoop_err_any env es (cur ++ [e]) bno k hfail ?_ ?_
      · simp only [List.length_append, List.length_cons, List.length_nil] at hlen ⊢
        omega
      · simp only [List.length_append, List.length_cons, List.length_nil]
        omega

lemma ingestLoop_ok_inv (env : Env) :
    ∀ (rest cur : List Entry) (bno : Nat) (out : List Entry),
    ingestLoop env bno cur rest = .ok out → out = cur ++ rest
  | [], cur, bno, out => by
    intro h
    by_cases hcur : cur = []
    · simp [ingestLoop, hcur] at h
      simp [hcur, ← h]
    · simp only [ingestLoop, if_neg hcur] at h
      by_cases hflag : (env.encodeOk bno && env.addOk bno) = true
      · rw [if_pos hflag] at h
        injection h with h
        simp [← h]
      · rw [if_neg hflag] at h
        cases h
  | e :: es, cur, bno, out => by
    intro h
    by_cases hlen : 128 ≤ (cur ++ [e]).length
    · simp only [ingestLoop, if_pos hlen] at h
      by_cases hflag : (env.encodeOk bno && env.addOk bno) = true
      · rw [if_pos hflag] at h
        rcases hrec : ingestLoop env (bno + 1) [] es with err | added
        · rw [hrec] at h; cases h
        · rw [hrec] at h
          injection h with h
          have := ingestLoop_ok_inv env es [] (bno + 1) added hrec
          simp only [List.nil_append] at this
          subst this
          simp [← h]
      · rw [if_neg hflag] at h
        cases h
    · simp only [ingestLoop, if_neg hlen] at h
      have := ingestLoop_ok_inv env es (cur ++ [e]) bno out h
      simp [this]

/-- C1: partition isolation of the rebuild.  Whenever `build_index` completes,
every pre-existing entry whose source tag is not the bulk-export tag — in
particular every live-partition entry — is still in the store, and any entry it
removed carried the bulk-export tag.  This holds whether or not the partition
delete succeeded. -/
theorem rebuild_partition_isolation (env : Env) (msgs : List Msg)
    (store out : List Entry) (h : build_index env msgs store = .ok out) :
    (∀ e ∈ store, e.meta.source = liveTag → e ∈ out) ∧
    (∀ e ∈ store, e ∉ out → e.meta.source = bulkTag) := by
  have hkeep : ∀ e ∈ store, e.meta.source ≠ bulkTag → e ∈ out := by
    intro e he hne
    rw [build_index] at h
    rcases hloop : ingestLoop env 0 [] (exportEntries 0 msgs) with err | added
    · rw [hloop] at h; cases h
    · rw [hloop] at h
      injection h with h
      rw [← h]
      apply List.mem_append_left
      by_cases hdel : env.deleteOk
      · rw [if_pos hdel]
        apply List.mem_filter.mpr
        refine ⟨he, ?_⟩
        simp [hne]
      · rw [if_neg hdel]
        exact he
  constructor
  · intro e he hlive
    apply hkeep e he
    rw [hlive]
    decide
  · intro e he hout
    by_contra hbulk
    exact hout (hkeep e he hbulk)

/-- Witness store entries and message for the rebuild theorems. -/
def demoLive : Entry :=
  { id := ("x1").data, doc := ("d1").data
    meta := { source := liveTag, conversation_title := none, role := none,
              timestamp := none, model := none, used_rag := none } }

def demoBulk : Entry :=
  { id := ("x2").data, doc := ("d2").data
    meta := { source := bulkTag, conversation_title := none, role := none,
              timestamp := none, model := none, used_rag := none } }

def demoMsg : Msg := (("t").data, ("user").data, ("hello").data)

/-- Witness for `rebuild_partition_isolation` at concrete inputs: the seeded
live entry survives a successful rebuild over a store holding one live and one
bulk-export entry. -/
theorem rebuild_partition_isolation_witness :
    demoLive ∈ [demoLive, exportEntry 0 ("t").data ("user").data ("hello").data] :=
  (rebuild_partition_isolation ⟨true, fun _ => true, fun _ => true⟩ [demoMsg]
      [demoLive, demoBulk]
      [demoLive, exportEntry 0 ("t").data ("user").data ("hello").data]
      rfl).1
    demoLive (by decide) (by decide)

/-- C9: asymmetric failure handling in the rebuild.  A failing partition
delete is tolerated — the rebuild still completes, merely without the deletion
— whereas a failing embedding call or store add during any batch that actually
occurs (batch `b` occurs exactly when more than `128 * b` entries are
generated) propagates out of `build_index` as a fatal error. -/
theorem rebuild_failure_asymmetry :
    (∀ (enc add : Nat → Bool) (msgs : List Msg) (store : List Entry),
      (∀ b, enc b = true) → (∀ b, add b = true) →
      build_index ⟨false, enc, add⟩ msgs store =
        .ok (store ++ exportEntries 0 msgs)) ∧
    (∀ (env : Env) (msgs : List Msg) (store : List Entry) (b : Nat),
      128 * b < (exportEntries 0 msgs).length →
      (env.encodeOk b && env.addOk b) = false →
      build_index env msgs store = .error ()) := by
  constructor
  · intro enc add msgs store henc hadd
    rw [build_index, ingestLoop_ok ⟨false, enc, add⟩ henc hadd]
    simp
  · intro env msgs store b hb hfail
    rw [build_index, ingestLoop_err_any env (exportEntries 0 msgs) [] 0 b
      (by rw [Nat.zero_add]; exact hfail) (by simp) (by simpa using hb)]

/-- Witness for `rebuild_failure_asymmetry` at concrete inputs: a rebuild with
a failing delete but working batches completes, and a run of 129 messages (two
batches) whose second batch's embedding call fails — batch 0 succeeds — errors. -/
theorem rebuild_failure_asymmetry_witness :
    build_index ⟨false, fun _ => true, fun _ => true⟩ [demoMsg] [demoLive] =
      .ok ([demoLive] ++ exportEntries 0 [demoMsg]) ∧
    build_index ⟨true, fun n => n == 0, fun _ => true⟩
      (List.replicate 129 demoMsg) [demoLive] = .error () :=
  ⟨rebuild_failure_asymmetry.1 (fun _ => true) (fun _ => true) [demoMsg]
      [demoLive] (fun _ => rfl) (fun _ => rfl),
   rebuild_failure_asymmetry.2 ⟨true, fun n => n == 0, fun _ => true⟩
      (List.replicate 129 demoMsg) [demoLive] 1 (by decide) rfl⟩

/-! ## Context assembly (`llm_rag_cli.py`, `retrieve_context`)

The store query is external; `retrieve_context` is modelled on the parallel
document / metadata lists it returns, in relevance order. -/

/-- The metadata fields `retrieve_context` reads from a query result. -/
structure QMeta where
  conversation_title : Option (List Char)
  role : Option (List Char)
deriving DecidableEq

/-- One formatted snippet (llm_rag_cli.py line 51):
`f"[{meta.get('conversation_title', 'unknown')}] ({meta.get('role')}):\n{doc}\n"`;
a missing role prints as Python `None`. -/
def pieceOf (doc : List Char) (m : QMeta) : List Char :=
  ("[").data ++ m.conversation_title.getD (("unknown").data) ++
    ("] (").data ++ m.role.getD (("None").data) ++ ("):\n").data ++
    doc ++ ("\n").data

/-- The fixed explanatory header prepended to a non-empty context block. -/
def headerC : List Char :=
  ("The following context is retrieved from my past ChatGPT conversations. " ++
    "Use it to ground your answer, but do NOT repeat it verbatim unless " ++
    "necessary.\n\n").data

/-- Sum of the lengths of a list of pieces. -/
def sumLens (ps : List (List Char)) : Nat := sumLen ps

/-- The packing loop of `retrieve_context` (lines 50-55): walk the formatted
pieces in relevance order with running total `total`; stop at the first piece
whose addition would push the total over `maxChars`, else take it. -/
def packPieces (maxChars : Nat) : Nat → List (List Char) → List (List Char)
  | _, [] => []
  | total, p :: ps =>
    if maxChars < total + p.length then []
    else p :: packPieces maxChars (total + p.length) ps

/-- Python `"\n\n".join(chunks)`. -/
def joinBlank : List (List Char) → List Char
  | [] => []
  | [p] => p
  | p :: ps => p ++ '\n' :: '\n' :: joinBlank ps

/-- `retrieve_context` from llm_rag_cli.py, given the documents and metadata
the store query returned (zipped as in the Python loop): pack greedily, return
`""` when nothing was packed, else the header plus the blank-line-joined
selected pieces. -/
def retrieve_context (maxChars : Nat) (docs : List (List Char))
    (metas : List QMeta) : List Char :=
  if packPieces maxChars 0 ((docs.zip metas).map (fun dm => pieceOf dm.1 dm.2)) = []
  then []
  else headerC ++
    joinBlank (packPieces maxChars 0 ((docs.zip metas).map (fun dm => pieceOf dm.1 dm.2)))

lemma packPieces_ex (maxChars : Nat) : ∀ (ps : List (List Char)) (total : Nat),
    ∃ rest, packPieces maxChars total ps ++ rest = ps
  | [], _ => ⟨[], rfl⟩
  | p :: ps, total => by
    by_cases h : maxChars < total + p.length
    · exact ⟨p :: ps, by simp [packPieces, h]⟩
    · obtain ⟨rest, hrest⟩ := packPieces_ex maxChars ps (total + p.length)
      exact ⟨rest, by simp [packPieces, h, hrest]⟩

lemma packPieces_sum (maxChars : Nat) : ∀ (ps : List (List Char)) (total : Nat),
    total + sumLens (packPieces maxChars total ps) ≤ maxChars ∨
      packPieces maxChars total ps = []
  | [], total => by
    right; rfl
  | p :: ps, total => by
    by_cases h : maxChars < total + p.length
    · right; simp [packPieces, h]
    · left
      rw [packPieces, if_neg h]
      rcases packPieces_sum maxChars ps (total + p.length) with h2 | h2
      · simp only [sumLens, sumLen] at h2 ⊢
        omega
      · rw [h2]
        simp only [sumLens, sumLen]
        omega

lemma packPieces_stop (maxChars : Nat) : ∀ (ps : List (List Char)) (total : Nat)
    (p : List Char) (rest : List (List Char)),
    ps.drop (packPieces maxChars total ps).length = p :: rest →
    maxChars < total + sumLens (packPieces maxChars total ps) + p.length
  | [], _, _, _ => by intro h; simp at h
  | q :: qs, total, p, rest => by
    intro h
    by_cases hq : maxChars < total + q.length
    · rw [packPieces, if_pos hq] at h ⊢
      simp only [List.length_nil, List.drop_zero] at h
      injection h with h1 _
      subst h1
      simpa [sumLens, sumLen] using hq
    · rw [packPieces, if_neg hq] at h ⊢
      simp only [List.length_cons, List.drop_succ_cons] at h
      have := packPieces_stop maxChars qs (total + q.length) p rest h
      simp only [sumLens, sumLen] at this ⊢
      omega

/-- Demo documents and metadata for the context-assembly theorems: with title
`"t"` and role `"r"` the formatting overhead is 10 characters, so a
20-character document gives a 30-character piece and an empty document a
10-character piece. -/
def d20a : List Char := List.replicate 20 'a'

def d20b : List Char := List.replicate 20 'b'

def m1 : QMeta := ⟨some (("t").data), some (("r").data)⟩

/-- C7: greedy budgeted packing of context.  The selected pieces are an
initial segment of the candidate pieces in relevance order, their total length
never exceeds the budget, and packing stops exactly at the first piece whose
addition would push the running total over the budget (it never skips ahead);
concretely, with budget 50 and formatted pieces of lengths 30, 30, 10 only the
first is included and the result is non-empty, and with zero candidates the
result is exactly the empty string. -/
theorem context_packing_greedy :
    (∀ (maxChars : Nat) (ps : List (List Char)),
      ∃ rest, packPieces maxChars 0 ps ++ rest = ps) ∧
    (∀ (maxChars : Nat) (ps : List (List Char)),
      sumLens (packPieces maxChars 0 ps) ≤ maxChars) ∧
    (∀ (maxChars : Nat) (ps : List (List Char)) (p : List Char)
      (rest : List (List Char)),
      ps.drop (packPieces maxChars 0 ps).length = p :: rest →
      maxChars < sumLens (packPieces maxChars 0 ps) + p.length) ∧
    retrieve_context 50 [d20a, d20b, []] [m1, m1, m1] =
      headerC ++ pieceOf d20a m1 ∧
    retrieve_context 50 [d20a, d20b, []] [m1, m1, m1] ≠ [] ∧
    retrieve_context 50 [] [] = [] := by
  refine ⟨fun maxChars ps => packPieces_ex maxChars ps 0, ?_, ?_, by decide,
    by decide, by decide⟩
  · intro maxChars ps
    rcases packPieces_sum maxChars ps 0 with h | h
    · omega
    · rw [h]
      exact Nat.zero_le _
  · intro maxChars ps p rest h
    have := packPieces_stop maxChars ps 0 p rest h
    omega

/-- Witness for the stopping condition of `context_packing_greedy` at the
concrete 30/30/10 piece lengths and budget 50. -/
theorem context_packing_greedy_witness :
    (50 : Nat) < sumLens (packPieces 50 0
      [pieceOf d20a m1, pieceOf d20b m1, pieceOf [] m1]) +
      (pieceOf d20b m1).length :=
  context_packing_greedy.2.2.1 50
    [pieceOf d20a m1, pieceOf d20b m1, pieceOf [] m1]
    (pieceOf d20b m1) [pieceOf [] m1] (by decide)

/-- C10: the character budget counts only the sum of the formatted snippet
lengths; the fixed header and the blank-line separators are not counted, so a
non-empty result can be strictly longer than `max_chars`: with budget 10 the
packed sum is within budget yet the returned block exceeds 10 characters, and
with budget 20 and two snippets the result length is exactly the header length
plus the packed sum plus the 2 uncounted separator characters. -/
theorem context_budget_uncounted :
    sumLens (packPieces 10 0 [pieceOf [] m1]) ≤ 10 ∧
    retrieve_context 10 [[]] [m1] ≠ [] ∧
    10 < (retrieve_context 10 [[]] [m1]).length ∧
    (retrieve_context 20 [[], []] [m1, m1]).length =
      headerC.length + sumLens (packPieces 20 0 [pieceOf [] m1, pieceOf [] m1]) + 2 := by
  decide

end LocalBrain
